import Mathlib

/-!
Verification of the retrieval core of the `rtb` note-retrieval tool.

The development shallowly embeds the retrieval engine:

* `src/search.rs` — `SimilaritySearch::execute` (streaming top-K selection over
  a `BinaryHeap<(Distance, BlockId)>`), `cosine_distance`, and the `Distance`
  contract;
* `src/result_forest.rs` — `ResultForest::add_item`, `get_subset_page_list`,
  `ResultPage::get_subset_page` / `get_subset_item`, and `get_ancestor_ids`;
* `src/embeddings.rs` — `Embedding::from_bytes` / `to_bytes`;
* `src/roam.rs` / `src/db.rs` — the `BlockId` and `RoamItem` data model.

Modelling conventions, stated once here and in the doc comment of each
definition they affect:

* `BlockId` (a fixed 9-byte Roam identifier compared lexicographically) is
  modelled as `ℕ`; the claims use only its decidable linear order.
* `Distance` (`NotNan<f32>` with its total order) is modelled generically by a
  linearly ordered type `D` where only the order matters, and by `ℝ` where the
  floating-point arithmetic of `cosine_distance` matters.  `f32` has no NaN in
  the `ℝ` model; the `NotNan` check of `Distance::try_from` therefore always
  passes there, while the `value < 0.0` check is modelled faithfully.
* A Rust function that can panic (`expect`, `unreachable!()`, the `ndarray`
  shape check inside `dot`) is modelled with `Option`/`Except`, panicking
  executions mapping to `none` / a dedicated error value.
* `std::collections::BinaryHeap` is modelled by the sorted sequence of its
  elements (ascending, so the heap maximum is the last element): `push` is
  ordered insertion, `pop` removes the maximum, and `into_sorted_vec` returns
  the ascending sequence itself.
* `BTreeMap` / `BTreeSet` are modelled as association lists / element lists
  that the insert operation keeps sorted by key, matching the ordered
  iteration of the Rust containers.
* SQLite tables are modelled as the list of their rows; `ORDER BY x ASC` is a
  stable insertion sort by `x` (Rust's `sort_by_key` is likewise modelled by
  stable insertion sort).
-/

namespace Rtb


/-- Equality of `Except` values (Rust `Result`) is decidable componentwise;
used to evaluate the model on concrete inputs. -/
instance {ε β : Type} [DecidableEq ε] [DecidableEq β] : DecidableEq (Except ε β) :=
  fun a b =>
    match a, b with
    | .error e, .error e' =>
      if h : e = e' then .isTrue (by rw [h])
      else .isFalse (by intro hc; cases hc; exact h rfl)
    | .error _, .ok _ => .isFalse (by intro hc; cases hc)
    | .ok _, .error _ => .isFalse (by intro hc; cases hc)
    | .ok v, .ok v' =>
      if h : v = v' then .isTrue (by rw [h])
      else .isFalse (by intro hc; cases hc; exact h rfl)

/-! ### Generic streaming top-K selection (`SimilaritySearch::execute`, k-NN loop)

The heap element type is an arbitrary linear order `α`; in `execute` it is
instantiated with `Distance ×ₗ BlockId`, the lexicographic order that the
derived `Ord` of the Rust tuple `(Distance, BlockId)` denotes. -/

/-- Model of `BinaryHeap::push`: insert into the sorted element sequence. -/
def heapPush {α : Type} [LinearOrder α] (h : List α) (x : α) : List α :=
  h.orderedInsert (· ≤ ·) x

/-- Model of `BinaryHeap::pop` on a max-heap: remove the maximum, i.e. the
last element of the ascending element sequence. -/
def heapPopMax {α : Type} (h : List α) : List α :=
  h.dropLast

/-- Model of `BinaryHeap::into_sorted_vec`: the ascending element sequence. -/
def heapIntoSortedVec {α : Type} (h : List α) : List α :=
  h

/-- One iteration of the k-NN loop body in `SimilaritySearch::execute`:
`heap.push(x); if heap.len() > top_k { heap.pop(); }`. -/
def knnStep {α : Type} [LinearOrder α] (k : ℕ) (h : List α) (x : α) : List α :=
  let h' := heapPush h x
  if k < h'.length then heapPopMax h' else h'

/-- The whole k-NN loop of `SimilaritySearch::execute`, started from the empty
heap, followed by `into_sorted_vec`. -/
def knnFold {α : Type} [LinearOrder α] (k : ℕ) (ps : List α) : List α :=
  heapIntoSortedVec (ps.foldl (knnStep k) [])

/-! ### The similarity search (`src/search.rs`)

`BlockId` models the 9-byte Roam identifier of `src/roam.rs`; only its
decidable linear order (the lexicographic byte order of the derived Rust
`Ord`) is relevant to the claims, so it is taken to be `ℕ`. -/

abbrev BlockId : Type := ℕ

/-- Model of `db::ItemEmbedding` (one row of the `item_embedding` table):
`item_id`, `embedded_text`, and the stored vector.  The vector type `E` is a
parameter, exactly as only `distance_metric` ever inspects it. -/
structure ItemEmbedding (E : Type) where
  item_id : BlockId
  embedded_text : String
  embedding : E
deriving DecidableEq

/-- The failure modes `SimilaritySearch::execute` can exhibit, named after the
spec's error taxonomy: `emptyResult` models the
`ensure!(!item_embeddings.is_empty(), ...)` bail-out, `invalidInput` the
taxonomy's invalid-input error (the code never produces it), and `panic` a
Rust panic aborting the computation (`ndarray` shape mismatch inside the
distance metric, or the `expect` on the `Distance` contract). -/
inductive SearchError : Type where
  | emptyResult : SearchError
  | invalidInput : SearchError
  | panic : SearchError
deriving DecidableEq

/-- Model of the `SimilaritySearch` struct: query vector, `top_k`, and the
pluggable `distance_metric : fn(&Embedding, &Embedding) -> Distance`.  The
Rust function may panic; the model returns `none` in that case.  `D` models
`Distance` (`NotNan<f32>`), of which the claims use only the total order. -/
structure SimilaritySearch (E D : Type) where
  query : E
  top_k : ℕ
  distance_metric : E → E → Option D

/-- Model of `SimilaritySearch::with_top_k`: replace `top_k`, with no
validation of the new value. -/
def SimilaritySearch.with_top_k {E D : Type} (s : SimilaritySearch E D)
    (top_k : ℕ) : SimilaritySearch E D :=
  { s with top_k := top_k }

/-- The per-item distance computations of the k-NN loop in
`SimilaritySearch::execute`, in scan order: each item yields the heap entry
`(distance, item_id)`; a panic in the metric aborts the whole loop (`none`).
The entry type `D ×ₗ BlockId` carries the lexicographic order of the derived
`Ord` on the Rust tuple `(Distance, BlockId)`. -/
def distancePairs {E D : Type} (metric : E → E → Option D) (q : E) :
    List (ItemEmbedding E) → Option (List (D ×ₗ BlockId))
  | [] => some []
  | it :: rest =>
    match metric q it.embedding, distancePairs metric q rest with
    | some d, some ps => some (toLex (d, it.item_id) :: ps)
    | _, _ => none

/-- Model of `SimilaritySearch::execute` over the loaded `item_embedding`
rows: fail with `emptyResult` if the store is empty
(`ensure!(!item_embeddings.is_empty(), ..)`), otherwise run the bounded
max-heap loop (`heap.push((distance, item_id)); if heap.len() > top_k
{ heap.pop(); }`) and return `heap.into_sorted_vec()`.  The model computes
the heap entries first (`distancePairs`) and then folds them through the heap
— observably equal to the single Rust loop, since the first panicking entry
aborts everything. -/
def SimilaritySearch.execute {E D : Type} [LinearOrder D]
    (s : SimilaritySearch E D) (item_embeddings : List (ItemEmbedding E)) :
    Except SearchError (List (D ×ₗ BlockId)) :=
  if item_embeddings.isEmpty then .error .emptyResult
  else
    match distancePairs s.distance_metric s.query item_embeddings with
    | none => .error .panic
    | some ps => .ok (knnFold s.top_k ps)

/-! ### Embedding serialization (`src/embeddings.rs`)

An `f32` is modelled by its 32-bit pattern, a natural number `< 2 ^ 32`:
`f32::to_le_bytes` / `f32::from_le_bytes` are mutually inverse bijections
between `f32` values and 4-byte little-endian patterns, so the store/load
round trip of `Embedding(Array<f32, Ix1>)` is exactly the round trip of the
bit patterns. -/

namespace Embedding

/-- Model of `f32::to_le_bytes`: the four little-endian base-256 digits of
the 32-bit pattern. -/
def f32_to_le_bytes (x : ℕ) : List ℕ :=
  [x % 256, x / 256 % 256, x / 65536 % 256, x / 16777216 % 256]

/-- Model of `f32::from_le_bytes` on one 4-byte chunk. -/
def f32_from_le_bytes (b : ℕ × ℕ × ℕ × ℕ) : ℕ :=
  b.1 + 256 * b.2.1 + 65536 * b.2.2.1 + 16777216 * b.2.2.2

/-- Model of `bytes.chunks_exact(4)`: the full 4-byte chunks, any shorter
remainder dropped. -/
def chunksExact4 : List ℕ → List (ℕ × ℕ × ℕ × ℕ)
  | b0 :: b1 :: b2 :: b3 :: rest => (b0, b1, b2, b3) :: chunksExact4 rest
  | _ => []

/-- Model of `Embedding::from_bytes`: decode every exact 4-byte chunk as a
little-endian `f32`. -/
def from_bytes (bytes : List ℕ) : List ℕ :=
  (chunksExact4 bytes).map f32_from_le_bytes

/-- Model of `Embedding::to_bytes`: the little-endian bytes of each `f32`,
concatenated (`flat_map` + `collect`). -/
def to_bytes (e : List ℕ) : List ℕ :=
  (e.map f32_to_le_bytes).flatten

end Embedding

/-! ### The floating-point side of `cosine_distance` (`src/search.rs`)

Real-valued model of the `f32` arithmetic.  `ndarray`'s `ArrayView::dot`
panics when the two views have different lengths, hence `Option`.  `ℝ` has no
NaN, so the `NotNan::new` check of `Distance::try_from` always succeeds in
the model (a zero-norm vector, which produces `0.0/0.0 = NaN` and a panic in
the Rust code, yields `similarity = 0` in the `ℝ` model because Mathlib
defines `x / 0 = 0`); the `value < 0.0` bail-out of `Distance::try_from`,
turned into a panic by the `expect` in `cosine_distance`, is modelled
faithfully. -/

/-- Model of `ndarray`'s 1-D `dot`: sum of pointwise products; panics
(`none`) when the lengths differ. -/
def dotProduct (a b : List ℝ) : Option ℝ :=
  if a.length = b.length then some (List.zipWith (· * ·) a b).sum else none

/-- Model of `cosine_distance`: `1 − a·b / (‖a‖·‖b‖)`, passed through the
`Distance::try_from` contract (non-negative, non-NaN) whose violation the
`expect` turns into a panic (`none`). -/
noncomputable def cosine_distance (a b : List ℝ) : Option ℝ :=
  match dotProduct a a, dotProduct b b, dotProduct a b with
  | some daa, some dbb, some dab =>
    if 1 - dab / (Real.sqrt daa * Real.sqrt dbb) < 0 then none
    else some (1 - dab / (Real.sqrt daa * Real.sqrt dbb))
  | _, _, _ => none

/-! ### The note store (`src/db.rs`, `src/schema.rs`)

The `roam_item` SQLite table is modelled as the list of its rows. -/

/-- Model of a page title, the `String` key of `roam_page` referenced by
`roam_item.parent_page_id` and by the `ResultForest` page map.  The claims
use only the decidable total order of Rust `String` (lexicographic byte
order), so titles are modelled by `ℕ` exactly as `BlockId` is. -/
abbrev PageTitle : Type := ℕ

/-- Model of `db::RoamItem` (one row of `roam_item`). -/
structure RoamItem where
  id : BlockId
  parent_page_id : Option PageTitle
  parent_item_id : Option BlockId
  order_in_parent : ℤ
  contents : String
  create_time : Option ℤ
  edit_time : Option ℤ
deriving DecidableEq

/-- The `roam_item` table. -/
abbrev Db : Type := List RoamItem

/-- Failure modes of the forest-building code: `notFound` models diesel's
not-found error propagated by `wrap_err` in `get_ancestor_ids`;
`integrityViolation` the `unreachable!()` arm there (both or neither owner
column set); `nonTermination` a cyclic parent chain, on which the Rust loop
would never return (the model runs out of fuel instead). -/
inductive DbError : Type where
  | notFound : DbError
  | integrityViolation : DbError
  | nonTermination : DbError
deriving DecidableEq

/-- Model of `schema::roam_item::table.find(current).first(conn)`. -/
def dbFind (db : Db) (i : BlockId) : Option RoamItem :=
  db.find? (fun r => r.id = i)

/-- The loop body of `get_ancestor_ids` (`src/result_forest.rs`): look the
current item up, prepend its id to the path (`path.push_front`), and either
climb to the parent item, stop at the owning page, or hit the
`unreachable!()` integrity fault.  `fuel` bounds the iteration count; the
wrapper supplies more fuel than any acyclic parent chain can consume. -/
def get_ancestor_ids_loop (db : Db) :
    ℕ → BlockId → List BlockId → Except DbError (PageTitle × List BlockId)
  | 0, _, _ => .error .nonTermination
  | fuel + 1, current, path =>
    match dbFind db current with
    | none => .error .notFound
    | some dbItem =>
      match dbItem.parent_item_id, dbItem.parent_page_id with
      | some it, none => get_ancestor_ids_loop db fuel it (dbItem.id :: path)
      | none, some pg => .ok (pg, dbItem.id :: path)
      | _, _ => .error .integrityViolation

/-- Model of `get_ancestor_ids`: the page owning `item` and the id path from
the page's direct child down to `item` itself. -/
def get_ancestor_ids (db : Db) (item : BlockId) :
    Except DbError (PageTitle × List BlockId) :=
  get_ancestor_ids_loop db (db.length + 1) item []

/-! ### Ordered-container models (`BTreeSet`, `BTreeMap`)

Both are modelled by lists that insertion keeps sorted, matching the
key-ordered iteration of the Rust containers. -/

/-- Model of `BTreeSet::insert`: ordered insertion, no duplicates. -/
def setInsert {κ : Type} [LinearOrder κ] (a : κ) : List κ → List κ
  | [] => [a]
  | b :: rest =>
    if a < b then a :: b :: rest
    else if a = b then b :: rest
    else b :: setInsert a rest

/-- Model of `BTreeMap::insert`: ordered insertion by key, overwriting an
existing entry for the same key. -/
def mapInsert {κ ν : Type} [LinearOrder κ] (k : κ) (v : ν) :
    List (κ × ν) → List (κ × ν)
  | [] => [(k, v)]
  | (k', v') :: rest =>
    if k < k' then (k, v) :: (k', v') :: rest
    else if k = k' then (k, v) :: rest
    else (k', v') :: mapInsert k v rest

/-- Model of `BTreeMap::get`: value of the first entry with the given key. -/
def mapLookup {κ ν : Type} [LinearOrder κ] (k : κ) : List (κ × ν) → Option ν
  | [] => none
  | (k', v) :: rest => if k' = k then some v else mapLookup k rest

/-- Inserting the whole ancestor path: the `for ancestor_id in ancestors`
loop of `add_item`. -/
def insertAll {κ : Type} [LinearOrder κ] (s : List κ) (l : List κ) : List κ :=
  l.foldl (fun s a => setInsert a s) s

/-! ### The result forest (`src/result_forest.rs`) -/

/-- Model of `ResultPage`: the per-page accumulator.  `D` models `Distance`.
`included_items` is the `BTreeSet<BlockId>` of ids to render,
`item_distances` the `BTreeMap<BlockId, Distance>` of hits. -/
structure ResultPage (D : Type) where
  name : PageTitle
  min_distance : D
  included_items : List BlockId
  item_distances : List (BlockId × D)
deriving DecidableEq

/-- Model of `ResultForest`: the `BTreeMap<String, ResultPage>` keyed by page
title. -/
structure ResultForest (D : Type) where
  pages : List (PageTitle × ResultPage D)
deriving DecidableEq

/-- Model of `ResultForest::new`. -/
def ResultForest.new (D : Type) : ResultForest D := ⟨[]⟩

/-- The `self.pages.entry(page).or_insert_with(..)` step of `add_item`: the
existing page accumulator, or a fresh one seeded with this hit's distance. -/
def ResultForest.pageEntry {D : Type} [LinearOrder D] (f : ResultForest D)
    (page : PageTitle) (distance : D) : ResultPage D :=
  match mapLookup page f.pages with
  | some p => p
  | none =>
    { name := page, min_distance := distance,
      included_items := [], item_distances := [] }

/-- The three in-place mutations `add_item` performs on the page
accumulator: insert every ancestor id into `included_items`
(`for ancestor_id in ancestors { .. insert .. }`), record the hit's distance
in `item_distances`, and lower `min_distance` if this hit is closer. -/
def updatePage {D : Type} [LinearOrder D] (ancestors : List BlockId)
    (item_id : BlockId) (distance : D) (pg : ResultPage D) : ResultPage D :=
  let pg := { pg with
    included_items := ancestors.foldl (fun s a => setInsert a s) pg.included_items }
  let pg := { pg with item_distances := mapInsert item_id distance pg.item_distances }
  let pg := if distance < pg.min_distance then { pg with min_distance := distance } else pg
  pg

/-- The whole state change of `add_item` once the ancestor path is resolved:
fetch or seed the page accumulator, mutate it, and store it back (`BTreeMap`
entries are mutated in place; the model re-inserts the updated record). -/
def ResultForest.applyHit {D : Type} [LinearOrder D] (f : ResultForest D)
    (page : PageTitle) (ancestors : List BlockId) (item_id : BlockId) (distance : D) :
    ResultForest D :=
  { pages := mapInsert page (updatePage ancestors item_id distance
      (f.pageEntry page distance)) f.pages }

/-- Model of `ResultForest::add_item`: resolve the hit's ancestors (the `?`
propagating any failure before the forest is touched), then apply the state
change. -/
def ResultForest.add_item {D : Type} [LinearOrder D] (db : Db)
    (f : ResultForest D) (item_id : BlockId) (distance : D) :
    Except DbError (ResultForest D) := do
  let (page, ancestors) ← get_ancestor_ids db item_id
  .ok (f.applyHit page ancestors item_id distance)

/-- Adding a list of hits left to right, each through
`ResultForest::add_item`, the first error aborting (the `?` operator at the
call sites). -/
def ResultForest.addItems {D : Type} [LinearOrder D] (db : Db) :
    ResultForest D → List (BlockId × D) → Except DbError (ResultForest D)
  | f, [] => .ok f
  | f, h :: rest => do
    let f' ← f.add_item db h.1 h.2
    ResultForest.addItems db f' rest

/-- Whether `get_ancestor_ids` succeeds for an item (it depends only on the
store, never on the forest state). -/
def resolves (db : Db) (i : BlockId) : Bool :=
  match get_ancestor_ids db i with
  | .ok _ => true
  | .error _ => false

/-- Model of `SubsetItem`: a pruned item node — id, the hit distance if this
node was itself a hit, and the retained children in original sibling
order. -/
inductive SubsetItem (D : Type) : Type where
  | node (id : BlockId) (distance : Option D) (children : List (SubsetItem D)) : SubsetItem D

/-- The id of a `SubsetItem`. -/
def SubsetItem.idOf {D : Type} : SubsetItem D → BlockId
  | .node i _ _ => i

/-- Model of `SubsetPage`: title, minimum distance, retained root items. -/
structure SubsetPage (D : Type) where
  title : PageTitle
  min_distance : D
  children : List (SubsetItem D)

/-- Effectful map over a list in the `Except` monad, the model of
`children.map(...).collect::<Result<Vec<_>>>()`. -/
def mapE {ε β γ : Type} (g : β → Except ε γ) : List β → Except ε (List γ)
  | [] => .ok []
  | a :: l => do
    let c ← g a
    let out ← mapE g l
    .ok (c :: out)

/-- Model of the child queries in `get_subset_page` / `get_subset_item`:
`filter(parent = ..).order(order_in_parent.asc()).load(..)`.  `ORDER BY`
is modelled as a stable insertion sort by `order_in_parent` over the table
rows. -/
def childrenByOrder (rows : List RoamItem) : List RoamItem :=
  rows.insertionSort (fun a b => a.order_in_parent ≤ b.order_in_parent)

/-- Model of `ResultPage::get_subset_item`: load the item's children in
stored order, keep those in `included_items`, recurse, and attach the item's
own distance from `item_distances` if present.  `fuel` bounds the recursion
depth (the Rust recursion would not terminate on a cyclic store). -/
def ResultPage.get_subset_item {D : Type} [LinearOrder D] (db : Db)
    (p : ResultPage D) : ℕ → BlockId → Except DbError (SubsetItem D)
  | 0, _ => .error .nonTermination
  | fuel + 1, item => do
    let children := childrenByOrder (db.filter (fun r => r.parent_item_id = some item))
    let children_in_result := children.filter (fun c => c.id ∈ p.included_items)
    let subset_children ← mapE (fun c => p.get_subset_item db fuel c.id) children_in_result
    .ok (.node item (mapLookup item p.item_distances) subset_children)

/-- Model of `ResultPage::get_subset_page`: load the page's root items in
stored order, keep those in `included_items`, and recurse on each. -/
def ResultPage.get_subset_page {D : Type} [LinearOrder D] (db : Db)
    (p : ResultPage D) (fuel : ℕ) : Except DbError (SubsetPage D) := do
  let children := childrenByOrder (db.filter (fun r => r.parent_page_id = some p.name))
  let children_in_result := children.filter (fun c => c.id ∈ p.included_items)
  let subset_children ← mapE (fun c => p.get_subset_item db fuel c.id) children_in_result
  .ok { title := p.name, min_distance := p.min_distance, children := subset_children }

/-- Model of `ResultForest::get_subset_page_list`: take the page accumulators
in `BTreeMap` value order (ascending page title), stable-sort them ascending
by `min_distance` (`sort_by_key`), and build each page's subset. -/
def ResultForest.get_subset_page_list {D : Type} [LinearOrder D] (db : Db)
    (f : ResultForest D) (fuel : ℕ) : Except DbError (List (SubsetPage D)) :=
  let pages := f.pages.map (·.2)
  let pages := pages.insertionSort (fun a b => a.min_distance ≤ b.min_distance)
  mapE (fun p => p.get_subset_page db fuel) pages

/-- Connectedness of a pruned subtree: each child node in the output carries,
in the store, a `parent_item_id` pointing at the node it hangs under in the
output, recursively. -/
inductive EdgesOk {D : Type} (db : Db) : SubsetItem D → Prop where
  | node : ∀ (i : BlockId) (dist : Option D) (children : List (SubsetItem D)),
      (∀ c ∈ children, ∃ r ∈ db, r.id = c.idOf ∧ r.parent_item_id = some i) →
      (∀ c ∈ children, EdgesOk db c) →
      EdgesOk db (.node i dist children)

/-- Connectedness of a whole output page: each root node of the page carries,
in the store, a `parent_page_id` pointing at the page's title, and each
deeper node hangs under its stored parent (`EdgesOk`). -/
def PageConnected {D : Type} (db : Db) (sp : SubsetPage D) : Prop :=
  ∀ c ∈ sp.children,
    (∃ r ∈ db, r.id = c.idOf ∧ r.parent_page_id = some sp.title) ∧ EdgesOk db c

/-! ### Page ordering (`get_subset_page_list`) -/

/-- Ascending by minimum distance, ties broken by ascending page name. -/
def pageLex {D : Type} [LinearOrder D] (a b : ResultPage D) : Prop :=
  a.min_distance < b.min_distance ∨
    (a.min_distance = b.min_distance ∧ a.name ≤ b.name)

/-- Ascending by minimum distance, ties broken by ascending page title. -/
def subsetPageLex {D : Type} [LinearOrder D] (a b : SubsetPage D) : Prop :=
  a.min_distance < b.min_distance ∨
    (a.min_distance = b.min_distance ∧ a.title ≤ b.title)

/-- The structural invariant of the `BTreeMap<String, ResultPage>`: entries
strictly sorted by key, and each accumulator's `name` equal to its key. -/
def ForestInv {D : Type} (f : ResultForest D) : Prop :=
  f.pages.Pairwise (fun e e' => e.1 < e'.1) ∧ ∀ e ∈ f.pages, e.2.name = e.1

theorem take_cons_take {β : Type} (k : ℕ) (y : β) (l : List β) :
    (y :: l.take k).take k = (y :: l).take k := by
  cases k with
  | zero => simp
  | succ m =>
    simp only [List.take_succ_cons, List.take_take]
    rw [min_eq_left (Nat.le_succ m)]

theorem take_orderedInsert_take {α : Type} [LinearOrder α] (k : ℕ) (x : α) :
    ∀ l : List α,
      ((l.take k).orderedInsert (· ≤ ·) x).take k = (l.orderedInsert (· ≤ ·) x).take k := by
  intro l
  induction l generalizing k with
  | nil => simp
  | cons y l ih =>
    cases k with
    | zero => simp
    | succ m =>
      by_cases hxy : x ≤ y
      · simp only [List.take_succ_cons, List.orderedInsert, if_pos hxy,
          List.take_succ_cons]
        rw [take_cons_take]
      · simp only [List.take_succ_cons, List.orderedInsert, if_neg hxy,
          List.take_succ_cons]
        rw [ih]

theorem knnStep_take {α : Type} [LinearOrder α] (k : ℕ) (x : α) (l : List α) :
    knnStep k (l.take k) x = (l.orderedInsert (· ≤ ·) x).take k := by
  unfold knnStep heapPush heapPopMax
  by_cases hlen : k < ((l.take k).orderedInsert (· ≤ ·) x).length
  · rw [if_pos hlen]
    have hlen' : ((l.take k).orderedInsert (· ≤ ·) x).length = (l.take k).length + 1 :=
      List.orderedInsert_length (· ≤ ·) (l.take k) x
    have htk : (l.take k).length ≤ k := by
      simp
    have hexact : ((l.take k).orderedInsert (· ≤ ·) x).length = k + 1 := by omega
    rw [List.dropLast_eq_take, hexact]
    simp only [Nat.add_sub_cancel]
    exact take_orderedInsert_take k x l
  · rw [if_neg hlen]
    have h1 : ((l.take k).orderedInsert (· ≤ ·) x).length ≤ k := by omega
    rw [← List.take_of_length_le h1]
    exact take_orderedInsert_take k x l

theorem insertionSort_perm_congr {α : Type} [LinearOrder α] {l l' : List α} (h : l.Perm l') :
    l.insertionSort (· ≤ ·) = l'.insertionSort (· ≤ ·) :=
  List.eq_of_perm_of_sorted
    ((List.perm_insertionSort _ l).trans (h.trans (List.perm_insertionSort _ l').symm))
    (List.sorted_insertionSort _ l) (List.sorted_insertionSort _ l')

theorem knnFold_aux {α : Type} [LinearOrder α] (k : ℕ) :
    ∀ (rest ps : List α),
      rest.foldl (knnStep k) ((ps.insertionSort (· ≤ ·)).take k) =
        ((rest ++ ps).insertionSort (· ≤ ·)).take k := by
  intro rest
  induction rest with
  | nil => intro ps; simp
  | cons x rest ih =>
    intro ps
    have hstep : knnStep k ((ps.insertionSort (· ≤ ·)).take k) x =
        (((x :: ps).insertionSort (· ≤ ·))).take k := by
      rw [knnStep_take]
      rfl
    calc (x :: rest).foldl (knnStep k) ((ps.insertionSort (· ≤ ·)).take k)
        = rest.foldl (knnStep k) (((x :: ps).insertionSort (· ≤ ·)).take k) := by
          rw [List.foldl_cons, hstep]
      _ = ((rest ++ (x :: ps)).insertionSort (· ≤ ·)).take k := ih (x :: ps)
      _ = (((x :: rest) ++ ps).insertionSort (· ≤ ·)).take k := by
          rw [insertionSort_perm_congr (List.perm_middle)]
          simp

/-- The k-NN loop retains exactly the `k` least elements, in ascending order:
it computes the `k`-prefix of the fully sorted input. -/
theorem knnFold_eq {α : Type} [LinearOrder α] (k : ℕ) (ps : List α) :
    knnFold k ps = (ps.insertionSort (· ≤ ·)).take k := by
  have h := knnFold_aux k ps []
  simp only [List.append_nil] at h
  unfold knnFold heapIntoSortedVec
  simpa using h

theorem knnFold_sorted {α : Type} [LinearOrder α] (k : ℕ) (ps : List α) :
    List.Sorted (· ≤ ·) (knnFold k ps) := by
  rw [knnFold_eq]
  exact (List.sorted_insertionSort _ ps).sublist (List.take_sublist k _)

theorem knnFold_bottomK {α : Type} [LinearOrder α] (k : ℕ) (ps : List α) {x : α}
    (hx : x ∈ ps) (hnot : x ∉ knnFold k ps) :
    ∀ q ∈ knnFold k ps, q ≤ x := by
  intro q hq
  rw [knnFold_eq] at hnot hq
  set s := ps.insertionSort (· ≤ ·) with hs
  have hxs : x ∈ s := by
    rw [hs]
    exact (List.mem_insertionSort _).mpr hx
  have hsplit : s.take k ++ s.drop k = s := List.take_append_drop k s
  have hxdrop : x ∈ s.drop k := by
    rcases (List.mem_append.mp (by rw [hsplit]; exact hxs)) with h | h
    · exact absurd h hnot
    · exact h
  have hsorted : List.Sorted (· ≤ ·) s := List.sorted_insertionSort _ ps
  have hpw := (List.pairwise_append.mp (by rw [hsplit]; exact hsorted)).2.2
  exact hpw q hq x hxdrop

theorem distancePairs_mem {E D : Type} (metric : E → E → Option D) (q : E)
    {items : List (ItemEmbedding E)} {ps : List (D ×ₗ BlockId)}
    (h : distancePairs metric q items = some ps) :
    ∀ it ∈ items, ∀ d, metric q it.embedding = some d →
      toLex (d, it.item_id) ∈ ps := by
  induction items generalizing ps with
  | nil => intro it hit; simp at hit
  | cons a rest ih =>
    intro it hit d hd
    rw [distancePairs] at h
    rcases hma : metric q a.embedding with _ | da
    · rw [hma] at h; simp at h
    rcases hrest : distancePairs metric q rest with _ | ps'
    · rw [hma, hrest] at h; simp at h
    rw [hma, hrest] at h
    simp only [Option.some.injEq] at h
    subst h
    rcases List.mem_cons.mp hit with h | h
    · subst h
      rw [hma] at hd
      simp only [Option.some.injEq] at hd
      subst hd
      exact List.mem_cons_self _ _
    · exact List.mem_cons_of_mem _ (ih hrest it h d hd)

theorem distancePairs_none_of_mem {E D : Type} (metric : E → E → Option D) (q : E)
    {items : List (ItemEmbedding E)} {it : ItemEmbedding E}
    (hit : it ∈ items) (h : metric q it.embedding = none) :
    distancePairs metric q items = none := by
  induction items with
  | nil => simp at hit
  | cons a rest ih =>
    rw [distancePairs]
    rcases List.mem_cons.mp hit with heq | hmem
    · subst heq; rw [h]
    · rw [ih hmem]
      rcases metric q a.embedding with _ | d <;> rfl

theorem distancePairs_perm_congr {E D : Type} (metric : E → E → Option D) (q : E)
    {items items' : List (ItemEmbedding E)} (h : items.Perm items') :
    Option.map (Multiset.ofList (α := D ×ₗ BlockId)) (distancePairs metric q items) =
      Option.map Multiset.ofList (distancePairs metric q items') := by
  induction h with
  | nil => rfl
  | cons a h ih =>
    rw [distancePairs, distancePairs]
    rcases metric q a.embedding with _ | d
    · rfl
    rcases h1 : distancePairs metric q _ with _ | ps <;>
      rcases h2 : distancePairs metric q _ with _ | ps'
    · rfl
    · rw [h1, h2] at ih; simp at ih
    · rw [h1, h2] at ih; simp at ih
    · rw [h1, h2] at ih
      simp only [Option.map_some', Option.some.injEq] at ih
      simp only [Option.map_some', Option.some.injEq]
      exact Multiset.coe_eq_coe.mpr
        ((Multiset.coe_eq_coe.mp ih).cons _)
  | swap a b rest =>
    rw [distancePairs, distancePairs, distancePairs, distancePairs]
    rcases metric q a.embedding with _ | da <;>
      rcases metric q b.embedding with _ | db <;>
        rcases distancePairs metric q rest with _ | ps <;>
          first
          | rfl
          | (simp only [Option.map_some', Option.some.injEq]
             exact Multiset.coe_eq_coe.mpr (List.Perm.swap _ _ _))
  | trans h1 h2 ih1 ih2 => exact ih1.trans ih2

theorem cosine_distance_none_of_length_ne {a b : List ℝ}
    (h : a.length ≠ b.length) : cosine_distance a b = none := by
  unfold cosine_distance
  have hab : dotProduct a b = none := by
    unfold dotProduct
    exact if_neg h
  rcases dotProduct a a with _ | daa <;> rcases dotProduct b b with _ | dbb <;>
    rw [hab]

theorem setInsert_comm_of_lt {κ : Type} [LinearOrder κ] {a b : κ} (hab : a < b) :
    ∀ s : List κ, setInsert a (setInsert b s) = setInsert b (setInsert a s) := by
  intro s
  induction s with
  | nil =>
    simp [setInsert, hab, not_lt_of_gt hab, ne_of_gt hab]
  | cons c s ih =>
    rcases lt_trichotomy b c with hbc | hbc | hbc
    · have hac : a < c := hab.trans hbc
      simp [setInsert, hbc, hab, hac, not_lt_of_gt hab, ne_of_gt hab]
    · subst hbc
      simp [setInsert, hab, not_lt_of_gt hab, ne_of_gt hab]
    · rcases lt_trichotomy a c with hac | hac | hac
      · simp [setInsert, not_lt_of_gt hbc, ne_of_gt hbc, hac, hab,
          not_lt_of_gt hab, ne_of_gt hab]
      · subst hac
        simp [setInsert, not_lt_of_gt hbc, ne_of_gt hbc]
      · simp only [setInsert, if_neg (not_lt_of_gt hbc), if_neg (ne_of_gt hbc),
          if_neg (not_lt_of_gt hac), if_neg (ne_of_gt hac)]
        rw [ih]

theorem setInsert_comm {κ : Type} [LinearOrder κ] (a b : κ) (s : List κ) :
    setInsert a (setInsert b s) = setInsert b (setInsert a s) := by
  rcases lt_trichotomy a b with h | h | h
  · exact setInsert_comm_of_lt h s
  · rw [h]
  · exact (setInsert_comm_of_lt h s).symm

theorem setInsert_idem {κ : Type} [LinearOrder κ] (a : κ) :
    ∀ s : List κ, setInsert a (setInsert a s) = setInsert a s := by
  intro s
  induction s with
  | nil => simp [setInsert]
  | cons b s ih =>
    rcases lt_trichotomy a b with h | h | h
    · simp [setInsert, h]
    · subst h
      simp [setInsert]
    · simp only [setInsert, if_neg (not_lt_of_gt h), if_neg (ne_of_gt h)]
      rw [ih]

theorem insertAll_setInsert {κ : Type} [LinearOrder κ] (a : κ) (s l : List κ) :
    insertAll (setInsert a s) l = setInsert a (insertAll s l) := by
  induction l generalizing s with
  | nil => rfl
  | cons b l ih =>
    show insertAll (setInsert b (setInsert a s)) l = _
    rw [setInsert_comm b a, ih]
    rfl

theorem insertAll_cons {κ : Type} [LinearOrder κ] (a : κ) (s l : List κ) :
    insertAll s (a :: l) = setInsert a (insertAll s l) := by
  show insertAll (setInsert a s) l = _
  exact insertAll_setInsert a s l

theorem insertAll_comm {κ : Type} [LinearOrder κ] (s l1 l2 : List κ) :
    insertAll (insertAll s l1) l2 = insertAll (insertAll s l2) l1 := by
  induction l1 generalizing s with
  | nil => rfl
  | cons a l1 ih =>
    rw [insertAll_cons, insertAll_setInsert, ih, insertAll_cons]

theorem insertAll_idem {κ : Type} [LinearOrder κ] (s l : List κ) :
    insertAll (insertAll s l) l = insertAll s l := by
  induction l generalizing s with
  | nil => rfl
  | cons a l ih =>
    rw [insertAll_cons, insertAll_cons, insertAll_setInsert, setInsert_idem, ih]

theorem mapInsert_comm {κ ν : Type} [LinearOrder κ] {k k' : κ} (v v' : ν)
    (hkk : k ≠ k') :
    ∀ m : List (κ × ν), mapInsert k v (mapInsert k' v' m) = mapInsert k' v' (mapInsert k v m) := by
  have main : ∀ (a b : κ) (va vb : ν), a < b → ∀ m : List (κ × ν),
      mapInsert a va (mapInsert b vb m) = mapInsert b vb (mapInsert a va m) := by
    intro a b va vb hab m
    induction m with
    | nil =>
      simp [mapInsert, hab, not_lt_of_gt hab, ne_of_gt hab]
    | cons e m ih =>
      rcases e with ⟨c, vc⟩
      rcases lt_trichotomy b c with hbc | hbc | hbc
      · have hac : a < c := hab.trans hbc
        simp [mapInsert, hbc, hab, hac, not_lt_of_gt hab, ne_of_gt hab]
      · subst hbc
        simp [mapInsert, hab, not_lt_of_gt hab, ne_of_gt hab]
      · rcases lt_trichotomy a c with hac | hac | hac
        · simp [mapInsert, not_lt_of_gt hbc, ne_of_gt hbc, hac, hab,
            not_lt_of_gt hab, ne_of_gt hab]
        · subst hac
          simp [mapInsert, not_lt_of_gt hbc, ne_of_gt hbc]
        · simp only [mapInsert, if_neg (not_lt_of_gt hbc), if_neg (ne_of_gt hbc),
            if_neg (not_lt_of_gt hac), if_neg (ne_of_gt hac)]
          rw [ih]
  intro m
  rcases lt_trichotomy k k' with h | h | h
  · exact main k k' v v' h m
  · exact absurd h hkk
  · exact (main k' k v' v h m).symm

theorem mapInsert_overwrite {κ ν : Type} [LinearOrder κ] (k : κ) (v v' : ν) :
    ∀ m : List (κ × ν), mapInsert k v (mapInsert k v' m) = mapInsert k v m := by
  intro m
  induction m with
  | nil => simp [mapInsert]
  | cons e m ih =>
    rcases e with ⟨c, vc⟩
    rcases lt_trichotomy k c with h | h | h
    · simp [mapInsert, h]
    · subst h
      simp [mapInsert]
    · simp only [mapInsert, if_neg (not_lt_of_gt h), if_neg (ne_of_gt h)]
      rw [ih]

theorem mapLookup_insert_self {κ ν : Type} [LinearOrder κ] (k : κ) (v : ν) :
    ∀ m : List (κ × ν), mapLookup k (mapInsert k v m) = some v := by
  intro m
  induction m with
  | nil => simp [mapInsert, mapLookup]
  | cons e m ih =>
    rcases e with ⟨c, vc⟩
    rcases lt_trichotomy k c with h | h | h
    · simp [mapInsert, h, mapLookup]
    · subst h
      simp [mapInsert, mapLookup]
    · simp only [mapInsert, if_neg (not_lt_of_gt h), if_neg (ne_of_gt h), mapLookup,
        if_neg (ne_of_lt h)]
      exact ih

theorem mapLookup_insert_ne {κ ν : Type} [LinearOrder κ] {j k : κ} (v : ν)
    (hjk : j ≠ k) :
    ∀ m : List (κ × ν), mapLookup j (mapInsert k v m) = mapLookup j m := by
  intro m
  induction m with
  | nil => simp [mapInsert, mapLookup, Ne.symm hjk]
  | cons e m ih =>
    rcases e with ⟨c, vc⟩
    rcases lt_trichotomy k c with h | h | h
    · simp [mapInsert, h, mapLookup, Ne.symm hjk]
    · subst h
      simp [mapInsert, mapLookup, Ne.symm hjk]
    · simp only [mapInsert, if_neg (not_lt_of_gt h), if_neg (ne_of_gt h), mapLookup]
      by_cases hjc : c = j
      · simp [hjc]
      · simp only [if_neg hjc]
        exact ih

theorem mem_mapInsert {κ ν : Type} [LinearOrder κ] (k : κ) (v : ν) :
    ∀ (m : List (κ × ν)) (e : κ × ν), e ∈ mapInsert k v m → e = (k, v) ∨ e ∈ m := by
  intro m
  induction m with
  | nil => intro e he; simpa [mapInsert] using he
  | cons a m ih =>
    rcases a with ⟨c, vc⟩
    intro e he
    rcases lt_trichotomy k c with h | h | h
    · simp only [mapInsert, if_pos h] at he
      rcases List.mem_cons.mp he with h1 | h1
      · exact Or.inl h1
      · exact Or.inr h1
    · subst h
      simp only [mapInsert, if_neg (lt_irrefl k), if_pos rfl] at he
      rcases List.mem_cons.mp he with h1 | h1
      · exact Or.inl h1
      · exact Or.inr (List.mem_cons_of_mem _ h1)
    · simp only [mapInsert, if_neg (not_lt_of_gt h), if_neg (ne_of_gt h)] at he
      rcases List.mem_cons.mp he with h1 | h1
      · exact Or.inr (by rw [h1]; exact List.mem_cons_self _ _)
      · rcases ih e h1 with h2 | h2
        · exact Or.inl h2
        · exact Or.inr (List.mem_cons_of_mem _ h2)

theorem mapInsert_pairwise_keys {κ ν : Type} [LinearOrder κ] (k : κ) (v : ν) :
    ∀ m : List (κ × ν), m.Pairwise (fun e e' => e.1 < e'.1) →
      (mapInsert k v m).Pairwise (fun e e' => e.1 < e'.1) := by
  intro m
  induction m with
  | nil => intro _; simp [mapInsert]
  | cons a m ih =>
    rcases a with ⟨c, vc⟩
    intro hp
    rcases List.pairwise_cons.mp hp with ⟨hhead, htail⟩
    rcases lt_trichotomy k c with h | h | h
    · simp only [mapInsert, if_pos h]
      refine List.pairwise_cons.mpr ⟨?_, hp⟩
      intro e he
      rcases List.mem_cons.mp he with h1 | h1
      · rw [h1]; exact h
      · exact h.trans (hhead e h1)
    · subst h
      simp only [mapInsert, if_neg (lt_irrefl k), if_pos rfl]
      exact List.pairwise_cons.mpr ⟨hhead, htail⟩
    · simp only [mapInsert, if_neg (not_lt_of_gt h), if_neg (ne_of_gt h)]
      refine List.pairwise_cons.mpr ⟨?_, ih htail⟩
      intro e he
      rcases mem_mapInsert k v m e he with h1 | h1
      · rw [h1]; exact h
      · exact hhead e h1

theorem resolves_iff (db : Db) (i : BlockId) :
    resolves db i = true ↔ ∃ pr, get_ancestor_ids db i = .ok pr := by
  unfold resolves
  cases h : get_ancestor_ids db i <;> simp

theorem ite_lt_eq_min {D : Type} [LinearOrder D] (d m : D) :
    (if d < m then d else m) = min d m := by
  split_ifs with h
  · exact (min_eq_left h.le).symm
  · exact (min_eq_right (le_of_not_lt h)).symm

theorem updatePage_eq {D : Type} [LinearOrder D] (a : List BlockId)
    (i : BlockId) (d : D) (pg : ResultPage D) :
    updatePage a i d pg =
      { name := pg.name, min_distance := min d pg.min_distance,
        included_items := insertAll pg.included_items a,
        item_distances := mapInsert i d pg.item_distances } := by
  show (if d < pg.min_distance then _ else _) = _
  by_cases h : d < pg.min_distance
  · rw [if_pos h, ResultPage.mk.injEq]
    exact ⟨rfl, (min_eq_left h.le).symm, rfl, rfl⟩
  · rw [if_neg h, ResultPage.mk.injEq]
    exact ⟨rfl, (min_eq_right (le_of_not_lt h)).symm, rfl, rfl⟩

theorem updatePage_comm {D : Type} [LinearOrder D] {i1 i2 : BlockId} {d1 d2 : D}
    (a1 a2 : List BlockId) (hsame : i1 = i2 → d1 = d2) (pg : ResultPage D) :
    updatePage a2 i2 d2 (updatePage a1 i1 d1 pg) =
      updatePage a1 i1 d1 (updatePage a2 i2 d2 pg) := by
  rw [updatePage_eq, updatePage_eq, updatePage_eq, updatePage_eq,
    ResultPage.mk.injEq]
  refine ⟨rfl, min_left_comm d2 d1 pg.min_distance, insertAll_comm _ a1 a2, ?_⟩
  show mapInsert i2 d2 (mapInsert i1 d1 pg.item_distances) =
    mapInsert i1 d1 (mapInsert i2 d2 pg.item_distances)
  by_cases hii : i1 = i2
  · subst hii
    rw [hsame rfl]
  · exact mapInsert_comm d2 d1 (Ne.symm hii) pg.item_distances

theorem updatePage_seed_comm {D : Type} [LinearOrder D] {i1 i2 : BlockId}
    {d1 d2 : D} (P : PageTitle) (a1 a2 : List BlockId) (hsame : i1 = i2 → d1 = d2) :
    updatePage a2 i2 d2 (updatePage a1 i1 d1 ⟨P, d1, [], []⟩) =
      updatePage a1 i1 d1 (updatePage a2 i2 d2 ⟨P, d2, [], []⟩) := by
  rw [updatePage_eq, updatePage_eq, updatePage_eq, updatePage_eq,
    ResultPage.mk.injEq]
  refine ⟨rfl, ?_, insertAll_comm _ a1 a2, ?_⟩
  · show min d2 (min d1 d1) = min d1 (min d2 d2)
    rw [min_self, min_self, min_comm]
  · show mapInsert i2 d2 (mapInsert i1 d1 []) = mapInsert i1 d1 (mapInsert i2 d2 [])
    by_cases hii : i1 = i2
    · subst hii
      rw [hsame rfl]
    · exact mapInsert_comm d2 d1 (Ne.symm hii) _

theorem updatePage_idem {D : Type} [LinearOrder D] (a : List BlockId)
    (i : BlockId) (d : D) (pg : ResultPage D) :
    updatePage a i d (updatePage a i d pg) = updatePage a i d pg := by
  rw [updatePage_eq, updatePage_eq, ResultPage.mk.injEq]
  refine ⟨rfl, ?_, ?_, ?_⟩
  · show min d (min d pg.min_distance) = min d pg.min_distance
    rw [← min_assoc, min_self]
  · show insertAll (insertAll pg.included_items a) a = insertAll pg.included_items a
    exact insertAll_idem _ a
  · show mapInsert i d (mapInsert i d pg.item_distances) = mapInsert i d pg.item_distances
    exact mapInsert_overwrite i d d _

theorem pageEntry_insert_self {D : Type} [LinearOrder D] (f : ResultForest D)
    (p : PageTitle) (U : ResultPage D) (d : D) :
    ResultForest.pageEntry ⟨mapInsert p U f.pages⟩ p d = U := by
  unfold ResultForest.pageEntry
  rw [mapLookup_insert_self]

theorem pageEntry_insert_ne {D : Type} [LinearOrder D] (f : ResultForest D)
    {p q : PageTitle} (hpq : p ≠ q) (U : ResultPage D) (d : D) :
    ResultForest.pageEntry ⟨mapInsert q U f.pages⟩ p d =
      ResultForest.pageEntry f p d := by
  unfold ResultForest.pageEntry
  rw [mapLookup_insert_ne _ hpq]

theorem applyHit_comm {D : Type} [LinearOrder D] (f : ResultForest D)
    {p1 p2 : PageTitle} (a1 a2 : List BlockId) {i1 i2 : BlockId} {d1 d2 : D}
    (hsame : i1 = i2 → d1 = d2) :
    (f.applyHit p1 a1 i1 d1).applyHit p2 a2 i2 d2 =
      (f.applyHit p2 a2 i2 d2).applyHit p1 a1 i1 d1 := by
  by_cases hp : p1 = p2
  · subst hp
    show ResultForest.applyHit ⟨mapInsert p1 _ f.pages⟩ p1 a2 i2 d2 =
      ResultForest.applyHit ⟨mapInsert p1 _ f.pages⟩ p1 a1 i1 d1
    unfold ResultForest.applyHit
    rw [pageEntry_insert_self, pageEntry_insert_self]
    simp only [ResultForest.mk.injEq]
    rw [mapInsert_overwrite, mapInsert_overwrite]
    unfold ResultForest.pageEntry
    cases hq : mapLookup p1 f.pages with
    | some q =>
      rw [updatePage_comm a1 a2 hsame]
    | none =>
      rw [updatePage_seed_comm p1 a1 a2 hsame]
  · show ResultForest.applyHit ⟨mapInsert p1 _ f.pages⟩ p2 a2 i2 d2 =
      ResultForest.applyHit ⟨mapInsert p2 _ f.pages⟩ p1 a1 i1 d1
    unfold ResultForest.applyHit
    rw [pageEntry_insert_ne f (Ne.symm hp), pageEntry_insert_ne f hp]
    simp only [ResultForest.mk.injEq]
    exact mapInsert_comm _ _ (Ne.symm hp) f.pages

theorem applyHit_idem {D : Type} [LinearOrder D] (f : ResultForest D)
    (p : PageTitle) (a : List BlockId) (i : BlockId) (d : D) :
    (f.applyHit p a i d).applyHit p a i d = f.applyHit p a i d := by
  show ResultForest.applyHit ⟨mapInsert p _ f.pages⟩ p a i d = _
  unfold ResultForest.applyHit
  rw [pageEntry_insert_self]
  simp only [ResultForest.mk.injEq]
  rw [mapInsert_overwrite]
  rw [updatePage_idem]

theorem add_item_eq_of_ok {D : Type} [LinearOrder D] (db : Db)
    (f : ResultForest D) {i : BlockId} {pr : PageTitle × List BlockId}
    (h : get_ancestor_ids db i = .ok pr) (d : D) :
    f.add_item db i d = .ok (f.applyHit pr.1 pr.2 i d) := by
  unfold ResultForest.add_item
  rw [h]
  rfl

theorem add_item_eq_of_err {D : Type} [LinearOrder D] (db : Db)
    (f : ResultForest D) {i : BlockId} {e : DbError}
    (h : get_ancestor_ids db i = .error e) (d : D) :
    f.add_item db i d = .error e := by
  unfold ResultForest.add_item
  rw [h]
  rfl

theorem addItems_cons_ok {D : Type} [LinearOrder D] (db : Db)
    (f : ResultForest D) {x : BlockId × D} {pr : PageTitle × List BlockId}
    (h : get_ancestor_ids db x.1 = .ok pr) (l : List (BlockId × D)) :
    ResultForest.addItems db f (x :: l) =
      ResultForest.addItems db (f.applyHit pr.1 pr.2 x.1 x.2) l := by
  show (do
    let f' ← f.add_item db x.1 x.2
    ResultForest.addItems db f' l) = _
  rw [add_item_eq_of_ok db f h]
  rfl

theorem addItems_cons_err {D : Type} [LinearOrder D] (db : Db)
    (f : ResultForest D) {x : BlockId × D} {e : DbError}
    (h : get_ancestor_ids db x.1 = .error e) (l : List (BlockId × D)) :
    ResultForest.addItems db f (x :: l) = .error e := by
  show (do
    let f' ← f.add_item db x.1 x.2
    ResultForest.addItems db f' l) = _
  rw [add_item_eq_of_err db f h]
  rfl

theorem addItems_perm_congr {D : Type} [LinearOrder D] (db : Db)
    {hits hits' : List (BlockId × D)} (hperm : hits.Perm hits')
    (hcons : ∀ x ∈ hits, ∀ y ∈ hits, x.1 = y.1 → x.2 = y.2)
    (hres : ∀ x ∈ hits, resolves db x.1 = true) :
    ∀ f : ResultForest D,
      ResultForest.addItems db f hits = ResultForest.addItems db f hits' := by
  induction hperm with
  | nil => intro f; rfl
  | cons x hp ih =>
    intro f
    cases hg : get_ancestor_ids db x.1 with
    | error e =>
      rw [addItems_cons_err db f hg, addItems_cons_err db f hg]
    | ok pr =>
      rw [addItems_cons_ok db f hg, addItems_cons_ok db f hg]
      exact ih
        (fun a ha b hb hab =>
          hcons a (List.mem_cons_of_mem _ ha) b (List.mem_cons_of_mem _ hb) hab)
        (fun a ha => hres a (List.mem_cons_of_mem _ ha)) _
  | swap a b l =>
    intro f
    have hra := hres a (by simp)
    have hrb := hres b (by simp)
    obtain ⟨pra, hga⟩ := (resolves_iff db a.1).mp hra
    obtain ⟨prb, hgb⟩ := (resolves_iff db b.1).mp hrb
    have hsame : b.1 = a.1 → b.2 = a.2 := fun h =>
      hcons b (by simp) a (by simp) h
    rw [addItems_cons_ok db f hgb, addItems_cons_ok db _ hga,
      addItems_cons_ok db f hga, addItems_cons_ok db _ hgb]
    rw [applyHit_comm f prb.2 pra.2 hsame]
  | trans h1 h2 ih1 ih2 =>
    intro f
    exact (ih1 hcons hres f).trans
      (ih2
        (fun x hx y hy hxy =>
          hcons x (h1.mem_iff.mpr hx) y (h1.mem_iff.mpr hy) hxy)
        (fun x hx => hres x (h1.mem_iff.mpr hx)) f)

theorem addItems_dup {D : Type} [LinearOrder D] (db : Db) (f : ResultForest D)
    (x : BlockId × D) (l : List (BlockId × D)) :
    ResultForest.addItems db f (x :: x :: l) =
      ResultForest.addItems db f (x :: l) := by
  cases hg : get_ancestor_ids db x.1 with
  | error e =>
    rw [addItems_cons_err db f hg, addItems_cons_err db f hg]
  | ok pr =>
    rw [addItems_cons_ok db f hg, addItems_cons_ok db _ hg,
      addItems_cons_ok db f hg, applyHit_idem]

/-! ### Supporting lemmas about `mapE` and the subset reconstruction -/

theorem mapE_ok_mem {ε β γ : Type} (g : β → Except ε γ) :
    ∀ {l : List β} {out : List γ}, mapE g l = .ok out →
      ∀ c ∈ out, ∃ a ∈ l, g a = .ok c := by
  intro l
  induction l with
  | nil =>
    intro out h c hc
    rw [mapE] at h
    cases h
    cases hc
  | cons a l ih =>
    intro out h c hc
    rw [mapE] at h
    cases hga : g a with
    | error e => rw [hga] at h; cases h
    | ok v =>
      rw [hga] at h
      cases hm : mapE g l with
      | error e =>
        rw [hm] at h
        cases h
      | ok vs =>
        rw [hm] at h
        cases h
        rcases List.mem_cons.mp hc with h1 | h1
        · exact ⟨a, List.mem_cons_self _ _, by rw [hga, h1]⟩
        · obtain ⟨b, hb, hgb⟩ := ih hm c h1
          exact ⟨b, List.mem_cons_of_mem _ hb, hgb⟩

theorem mapE_ok_pairwise {ε β γ : Type} (g : β → Except ε γ)
    {R : β → β → Prop} {S : γ → γ → Prop}
    (himp : ∀ a b c d, R a b → g a = .ok c → g b = .ok d → S c d) :
    ∀ {l : List β} {out : List γ}, mapE g l = .ok out →
      l.Pairwise R → out.Pairwise S := by
  intro l
  induction l with
  | nil =>
    intro out h _
    rw [mapE] at h
    cases h
    exact List.Pairwise.nil
  | cons a l ih =>
    intro out h hp
    rw [mapE] at h
    cases hga : g a with
    | error e => rw [hga] at h; cases h
    | ok v =>
      rw [hga] at h
      cases hm : mapE g l with
      | error e => rw [hm] at h; cases h
      | ok vs =>
        rw [hm] at h
        cases h
        rcases List.pairwise_cons.mp hp with ⟨hhead, htail⟩
        refine List.pairwise_cons.mpr ⟨?_, ih hm htail⟩
        intro c hc
        obtain ⟨b, hb, hgb⟩ := mapE_ok_mem g hm c hc
        exact himp a b v c (hhead b hb) hga hgb

theorem mem_childrenByOrder {rows : List RoamItem} {r : RoamItem} :
    r ∈ childrenByOrder rows ↔ r ∈ rows :=
  (List.perm_insertionSort _ rows).mem_iff

theorem get_subset_item_edges {D : Type} [LinearOrder D] (db : Db)
    (p : ResultPage D) :
    ∀ (fuel : ℕ) (item : BlockId) (si : SubsetItem D),
      p.get_subset_item db fuel item = .ok si →
      si.idOf = item ∧ EdgesOk db si := by
  intro fuel
  induction fuel with
  | zero =>
    intro item si h
    rw [ResultPage.get_subset_item] at h
    cases h
  | succ fuel ih =>
    intro item si h
    rw [ResultPage.get_subset_item] at h
    cases hm : mapE (fun c => p.get_subset_item db fuel c.id)
        ((childrenByOrder (db.filter fun r => r.parent_item_id = some item)).filter
          (fun c => c.id ∈ p.included_items)) with
    | error e =>
      rw [hm] at h
      cases h
    | ok subs =>
      rw [hm] at h
      cases h
      refine ⟨rfl, EdgesOk.node item _ subs ?_ ?_⟩
      · intro c hc
        obtain ⟨a, ha, hga⟩ := mapE_ok_mem _ hm c hc
        obtain ⟨hid, _⟩ := ih a.id c hga
        have ha2 : a ∈ db.filter fun r => r.parent_item_id = some item :=
          mem_childrenByOrder.mp (List.mem_of_mem_filter ha)
        have ha3 : a ∈ db := List.mem_of_mem_filter ha2
        have ha4 : a.parent_item_id = some item := by
          have := List.of_mem_filter ha2
          simpa using this
        exact ⟨a, ha3, by rw [hid], ha4⟩
      · intro c hc
        obtain ⟨a, _, hga⟩ := mapE_ok_mem _ hm c hc
        exact (ih a.id c hga).2

theorem get_subset_page_fields {D : Type} [LinearOrder D] (db : Db)
    (p : ResultPage D) (fuel : ℕ) {sp : SubsetPage D}
    (h : p.get_subset_page db fuel = .ok sp) :
    sp.title = p.name ∧ sp.min_distance = p.min_distance := by
  rw [ResultPage.get_subset_page] at h
  cases hm : mapE (fun c => p.get_subset_item db fuel c.id)
      ((childrenByOrder (db.filter fun r => r.parent_page_id = some p.name)).filter
        (fun c => c.id ∈ p.included_items)) with
  | error e => rw [hm] at h; cases h
  | ok subs =>
    rw [hm] at h
    cases h
    exact ⟨rfl, rfl⟩

theorem get_subset_page_edges {D : Type} [LinearOrder D] (db : Db)
    (p : ResultPage D) (fuel : ℕ) {sp : SubsetPage D}
    (h : p.get_subset_page db fuel = .ok sp) :
    PageConnected db sp := by
  rw [ResultPage.get_subset_page] at h
  cases hm : mapE (fun c => p.get_subset_item db fuel c.id)
      ((childrenByOrder (db.filter fun r => r.parent_page_id = some p.name)).filter
        (fun c => c.id ∈ p.included_items)) with
  | error e => rw [hm] at h; cases h
  | ok subs =>
    rw [hm] at h
    cases h
    intro c hc
    obtain ⟨a, ha, hga⟩ := mapE_ok_mem _ hm c hc
    obtain ⟨hid, hedges⟩ := get_subset_item_edges db p fuel a.id c hga
    have ha2 : a ∈ db.filter fun r => r.parent_page_id = some p.name :=
      mem_childrenByOrder.mp (List.mem_of_mem_filter ha)
    have ha3 : a ∈ db := List.mem_of_mem_filter ha2
    have ha4 : a.parent_page_id = some p.name := by
      have := List.of_mem_filter ha2
      simpa using this
    exact ⟨⟨a, ha3, by rw [hid], ha4⟩, hedges⟩

theorem mapLookup_mem {κ ν : Type} [LinearOrder κ] {k : κ} {v : ν} :
    ∀ {m : List (κ × ν)}, mapLookup k m = some v → (k, v) ∈ m := by
  intro m
  induction m with
  | nil => intro h; cases h
  | cons e m ih =>
    rcases e with ⟨c, vc⟩
    intro h
    rw [mapLookup] at h
    by_cases hck : c = k
    · rw [if_pos hck] at h
      cases h
      subst hck
      exact List.mem_cons_self _ _
    · rw [if_neg hck] at h
      exact List.mem_cons_of_mem _ (ih h)

theorem forestInv_new {D : Type} : ForestInv (ResultForest.new D) :=
  ⟨List.Pairwise.nil, fun e he => absurd he (List.not_mem_nil e)⟩

theorem forestInv_applyHit {D : Type} [LinearOrder D] {f : ResultForest D}
    (hinv : ForestInv f) (page : PageTitle) (anc : List BlockId) (i : BlockId)
    (d : D) : ForestInv (f.applyHit page anc i d) := by
  constructor
  · exact mapInsert_pairwise_keys _ _ _ hinv.1
  · intro e he
    rcases mem_mapInsert _ _ _ e he with h1 | h1
    · rw [h1]
      show (updatePage anc i d (f.pageEntry page d)).name = page
      rw [updatePage_eq]
      show (f.pageEntry page d).name = page
      unfold ResultForest.pageEntry
      cases hq : mapLookup page f.pages with
      | some q => exact hinv.2 (page, q) (mapLookup_mem hq)
      | none => rfl
    · exact hinv.2 e h1

theorem forestInv_addItems {D : Type} [LinearOrder D] (db : Db) :
    ∀ (hits : List (BlockId × D)) (f g : ResultForest D), ForestInv f →
      ResultForest.addItems db f hits = .ok g → ForestInv g := by
  intro hits
  induction hits with
  | nil =>
    intro f g hinv h
    rw [ResultForest.addItems] at h
    cases h
    exact hinv
  | cons x l ih =>
    intro f g hinv h
    cases hg : get_ancestor_ids db x.1 with
    | error e => rw [addItems_cons_err db f hg] at h; cases h
    | ok pr =>
      rw [addItems_cons_ok db f hg] at h
      exact ih _ _ (forestInv_applyHit hinv pr.1 pr.2 x.1 x.2) h

theorem pageLex_min_le {D : Type} [LinearOrder D] {a b : ResultPage D}
    (h : pageLex a b) : a.min_distance ≤ b.min_distance := by
  rcases h with h | h
  · exact h.le
  · exact h.1.le

theorem orderedInsert_pageLex {D : Type} [LinearOrder D] (x : ResultPage D) :
    ∀ s : List (ResultPage D), s.Pairwise pageLex → (∀ y ∈ s, x.name < y.name) →
      (s.orderedInsert (fun a b => a.min_distance ≤ b.min_distance) x).Pairwise
        pageLex := by
  intro s
  induction s with
  | nil =>
    intro _ _
    simp [List.orderedInsert]
  | cons b t ih =>
    intro hp hn
    rw [List.orderedInsert]
    by_cases hxb : x.min_distance ≤ b.min_distance
    · rw [if_pos hxb]
      refine List.pairwise_cons.mpr ⟨?_, hp⟩
      intro y hy
      have hxy : x.min_distance ≤ y.min_distance := by
        rcases List.mem_cons.mp hy with h | h
        · rw [h]; exact hxb
        · exact hxb.trans (pageLex_min_le ((List.pairwise_cons.mp hp).1 y h))
      rcases lt_or_eq_of_le hxy with h | h
      · exact Or.inl h
      · exact Or.inr ⟨h, (hn y hy).le⟩
    · rw [if_neg hxb]
      refine List.pairwise_cons.mpr
        ⟨?_, ih (List.pairwise_cons.mp hp).2
          (fun y hy => hn y (List.mem_cons_of_mem _ hy))⟩
      intro y hy
      rcases (List.mem_orderedInsert _).mp hy with h | h
      · rw [h]
        exact Or.inl (lt_of_not_le hxb)
      · exact (List.pairwise_cons.mp hp).1 y h

theorem insertionSort_pageLex_of_names_sorted {D : Type} [LinearOrder D] :
    ∀ l : List (ResultPage D), l.Pairwise (fun a b => a.name < b.name) →
      (l.insertionSort (fun a b => a.min_distance ≤ b.min_distance)).Pairwise
        pageLex := by
  intro l
  induction l with
  | nil => intro _; simp
  | cons x l ih =>
    intro hp
    rw [List.insertionSort]
    apply orderedInsert_pageLex
    · exact ih (List.pairwise_cons.mp hp).2
    · intro y hy
      exact (List.pairwise_cons.mp hp).1 y ((List.mem_insertionSort _).mp hy)

/-! ### Supporting lemmas about `execute` -/

theorem execute_ok_elim {E D : Type} [LinearOrder D] {s : SimilaritySearch E D}
    {items : List (ItemEmbedding E)} {res : List (D ×ₗ BlockId)}
    (h : s.execute items = .ok res) :
    ∃ ps, distancePairs s.distance_metric s.query items = some ps ∧
      res = knnFold s.top_k ps := by
  unfold SimilaritySearch.execute at h
  by_cases he : items.isEmpty
  · rw [if_pos he] at h
    cases h
  · rw [if_neg he] at h
    cases hd : distancePairs s.distance_metric s.query items with
    | none => rw [hd] at h; cases h
    | some ps =>
      rw [hd] at h
      exact ⟨ps, rfl, (Except.ok.inj h).symm⟩

theorem distancePairs_some {E D : Type} (metric : E → E → Option D) (q : E) :
    ∀ items : List (ItemEmbedding E),
      (∀ it ∈ items, (metric q it.embedding).isSome = true) →
      ∃ ps, distancePairs metric q items = some ps := by
  intro items
  induction items with
  | nil => intro _; exact ⟨[], rfl⟩
  | cons a l ih =>
    intro h
    obtain ⟨ps, hps⟩ := ih fun it hit => h it (List.mem_cons_of_mem _ hit)
    have ha := h a (List.mem_cons_self _ _)
    rw [Option.isSome_iff_exists] at ha
    obtain ⟨d, hd⟩ := ha
    refine ⟨toLex (d, a.item_id) :: ps, ?_⟩
    rw [distancePairs, hd, hps]

theorem isEmpty_eq_of_perm {β : Type} {l l' : List β} (h : l.Perm l') :
    l.isEmpty = l'.isEmpty := by
  cases l with
  | nil =>
    have := h.nil_eq
    rw [← this]
  | cons a t =>
    cases l' with
    | nil =>
      have := h.symm.nil_eq
      cases this
    | cons b u => rfl

/-! ### The claims -/

/-- C1: whenever `SimilaritySearch::execute` succeeds, the returned list is
sorted ascending in the lexicographic `(Distance, BlockId)` order — ascending
by distance, ties broken by item id — and every returned entry's distance
(in particular the last, K-th, one) is at most the distance of every stored
vector whose `(distance, item_id)` pair was not returned. -/
theorem execute_sorted_and_bottom_k {E D : Type} [LinearOrder D]
    (s : SimilaritySearch E D) (items : List (ItemEmbedding E))
    (res : List (D ×ₗ BlockId)) (h : s.execute items = .ok res) :
    List.Sorted (· ≤ ·) res ∧
      ∀ it ∈ items, ∀ d, s.distance_metric s.query it.embedding = some d →
        toLex (d, it.item_id) ∉ res →
        ∀ q ∈ res, (ofLex q).1 ≤ d := by
  obtain ⟨ps, hps, hres⟩ := execute_ok_elim h
  subst hres
  refine ⟨knnFold_sorted _ _, ?_⟩
  intro it hit d hd hnot q hq
  have hmem : toLex (d, it.item_id) ∈ ps := distancePairs_mem _ _ hps it hit d hd
  have hle := knnFold_bottomK s.top_k ps hmem hnot q hq
  rcases (Prod.Lex.le_iff (ofLex q) (d, it.item_id)).mp hle with h1 | h1
  · exact h1.le
  · exact le_of_eq h1.1

theorem execute_sorted_and_bottom_k_witness :
    (SimilaritySearch.execute
        (⟨0, 2, fun _ e => some e⟩ : SimilaritySearch ℕ ℕ)
        [⟨10, "", 5⟩, ⟨11, "", 1⟩, ⟨12, "", 9⟩, ⟨13, "", 2⟩] =
      .ok [toLex ((1 : ℕ), (11 : BlockId)), toLex (2, 13)]) ∧
    (List.Sorted (· ≤ ·) [toLex ((1 : ℕ), (11 : BlockId)), toLex (2, 13)] ∧
      ∀ it ∈ [(⟨10, "", 5⟩ : ItemEmbedding ℕ), ⟨11, "", 1⟩, ⟨12, "", 9⟩, ⟨13, "", 2⟩],
        ∀ d, (fun _ e => some e : ℕ → ℕ → Option ℕ) 0 it.embedding = some d →
          toLex (d, it.item_id) ∉ [toLex ((1 : ℕ), (11 : BlockId)), toLex (2, 13)] →
          ∀ q ∈ [toLex ((1 : ℕ), (11 : BlockId)), toLex (2, 13)], (ofLex q).1 ≤ d) :=
  ⟨by decide,
    execute_sorted_and_bottom_k (⟨0, 2, fun _ e => some e⟩ : SimilaritySearch ℕ ℕ)
      [⟨10, "", 5⟩, ⟨11, "", 1⟩, ⟨12, "", 9⟩, ⟨13, "", 2⟩]
      [toLex (1, 11), toLex (2, 13)] (by decide)⟩

/-- C5: the result of `SimilaritySearch::execute` is invariant under
permutation of the stored vectors — the whole `Except` result is equal, ties
at the K-th distance included, because the retained entries are the K least
`(distance, item_id)` pairs in an order with no distinct equal elements. -/
theorem execute_perm_invariant {E D : Type} [LinearOrder D]
    (s : SimilaritySearch E D) {items items' : List (ItemEmbedding E)}
    (hperm : items.Perm items') :
    s.execute items = s.execute items' := by
  unfold SimilaritySearch.execute
  rw [isEmpty_eq_of_perm hperm]
  by_cases he : items'.isEmpty
  · rw [if_pos he, if_pos he]
  · rw [if_neg he, if_neg he]
    have hd := distancePairs_perm_congr s.distance_metric s.query hperm
    cases h1 : distancePairs s.distance_metric s.query items with
    | none =>
      cases h2 : distancePairs s.distance_metric s.query items' with
      | none => rfl
      | some ps' => rw [h1, h2] at hd; simp at hd
    | some ps =>
      cases h2 : distancePairs s.distance_metric s.query items' with
      | none => rw [h1, h2] at hd; simp at hd
      | some ps' =>
        rw [h1, h2] at hd
        simp only [Option.map_some', Option.some.injEq] at hd
        have hperm2 : ps.Perm ps' := Multiset.coe_eq_coe.mp hd
        show (Except.ok (knnFold s.top_k ps) : Except SearchError _) =
          .ok (knnFold s.top_k ps')
        rw [knnFold_eq, knnFold_eq, insertionSort_perm_congr hperm2]

theorem execute_perm_invariant_witness :
    (([⟨30, "", 2⟩, ⟨20, "", 2⟩, ⟨10, "", 2⟩, ⟨5, "", 1⟩] :
        List (ItemEmbedding ℕ)).Perm
      [⟨5, "", 1⟩, ⟨10, "", 2⟩, ⟨20, "", 2⟩, ⟨30, "", 2⟩]) ∧
    SimilaritySearch.execute
        (⟨0, 2, fun _ e => some e⟩ : SimilaritySearch ℕ ℕ)
        [⟨30, "", 2⟩, ⟨20, "", 2⟩, ⟨10, "", 2⟩, ⟨5, "", 1⟩] =
      SimilaritySearch.execute
        (⟨0, 2, fun _ e => some e⟩ : SimilaritySearch ℕ ℕ)
        [⟨5, "", 1⟩, ⟨10, "", 2⟩, ⟨20, "", 2⟩, ⟨30, "", 2⟩] :=
  ⟨by decide, execute_perm_invariant _ (by decide)⟩

/-- C7: on a store holding zero vectors, `SimilaritySearch::execute` fails
with the empty-store error (`ensure!(!item_embeddings.is_empty(), ..)`) for
every query; it never returns `Ok` with an empty list. -/
theorem execute_empty_store {E D : Type} [LinearOrder D]
    (s : SimilaritySearch E D) :
    s.execute [] = .error .emptyResult :=
  rfl

/-- C9 counterexample: with `with_top_k(0)` and a non-empty store, `execute`
returns `Ok` with the empty list — a successful result, not an
`InvalidInput` failure. -/
theorem execute_topk_zero_counterexample :
    (SimilaritySearch.with_top_k
          (⟨0, 32, fun _ e => some e⟩ : SimilaritySearch ℕ ℕ)
          0).execute [(⟨1, "", 5⟩ : ItemEmbedding ℕ)] =
        (.ok [] : Except SearchError (List (ℕ ×ₗ BlockId))) ∧
      (.ok [] : Except SearchError (List (ℕ ×ₗ BlockId))) ≠
        .error .invalidInput := by
  exact ⟨by decide, by decide⟩

/-- C9 amended: invoking the search with `top_k = 0` on a non-empty store
(and a metric that does not panic) succeeds with the empty result list; the
code performs no `k ≥ 1` validation and returns no error. -/
theorem execute_topk_zero {E D : Type} [LinearOrder D]
    (s : SimilaritySearch E D) (items : List (ItemEmbedding E))
    (hk : s.top_k = 0) (hne : items.isEmpty = false)
    (hm : ∀ it ∈ items, (s.distance_metric s.query it.embedding).isSome = true) :
    s.execute items = .ok [] := by
  unfold SimilaritySearch.execute
  have hne' : ¬(items.isEmpty = true) := by rw [hne]; simp
  rw [if_neg hne']
  obtain ⟨ps, hps⟩ := distancePairs_some s.distance_metric s.query items hm
  rw [hps]
  show Except.ok (knnFold s.top_k ps) = .ok []
  rw [knnFold_eq, hk, List.take_zero]

theorem execute_topk_zero_witness :
    ((⟨(0 : ℕ), 0, fun _ e => some e⟩ : SimilaritySearch ℕ ℕ).top_k = 0) ∧
    (([(⟨1, "", 5⟩ : ItemEmbedding ℕ)]).isEmpty = false) ∧
    (∀ it ∈ [(⟨1, "", 5⟩ : ItemEmbedding ℕ)],
      ((fun _ e => some e : ℕ → ℕ → Option ℕ) 0 it.embedding).isSome = true) ∧
    (⟨(0 : ℕ), 0, fun _ e => some e⟩ : SimilaritySearch ℕ ℕ).execute
        [⟨1, "", 5⟩] = .ok [] :=
  ⟨by decide, by decide, by decide,
    execute_topk_zero _ _ (by decide) (by decide) (by decide)⟩

/-- C3 counterexample: the same item added with two different distances —
a collection the claim's universal quantification admits — produces
different forests in the two orders, because `item_distances.insert`
overwrites, so the last write wins. -/
theorem addItems_order_counterexample :
    ResultForest.addItems [⟨100, some 1, none, 0, "x", none, none⟩]
        (ResultForest.new ℕ) [(100, 0), (100, 1)] ≠
      ResultForest.addItems [⟨100, some 1, none, 0, "x", none, none⟩]
        (ResultForest.new ℕ) [(100, 1), (100, 0)] := by
  decide

/-- C3 amended: for hit collections in which any two hits with the same item
id carry the same distance (every hit set a search produces is of this
form), and whose items all resolve in the store, adding the hits in any
order yields the same final forest — hence the same subset output — and
re-adding an identical hit changes nothing. -/
theorem addItems_perm_invariant_and_idem {D : Type} [LinearOrder D] (db : Db)
    {hits hits' : List (BlockId × D)} (hperm : hits.Perm hits')
    (hcons : ∀ x ∈ hits, ∀ y ∈ hits, x.1 = y.1 → x.2 = y.2)
    (hres : ∀ x ∈ hits, resolves db x.1 = true) (f : ResultForest D) :
    ResultForest.addItems db f hits = ResultForest.addItems db f hits' ∧
      ∀ (g : ResultForest D) (x : BlockId × D) (l : List (BlockId × D)),
        ResultForest.addItems db g (x :: x :: l) =
          ResultForest.addItems db g (x :: l) :=
  ⟨addItems_perm_congr db hperm hcons hres f,
    fun g x l => addItems_dup db g x l⟩

theorem addItems_perm_invariant_and_idem_witness :
    (([((101 : BlockId), (10 : ℕ)), (102, 30)]).Perm [(102, 30), (101, 10)]) ∧
    (∀ x ∈ [((101 : BlockId), (10 : ℕ)), (102, 30)],
      ∀ y ∈ [((101 : BlockId), (10 : ℕ)), (102, 30)], x.1 = y.1 → x.2 = y.2) ∧
    (∀ x ∈ [((101 : BlockId), (10 : ℕ)), (102, 30)],
      resolves [⟨100, some 1, none, 0, "intro", none, none⟩,
        ⟨101, none, some 100, 0, "detail", none, none⟩,
        ⟨102, some 2, none, 0, "note", none, none⟩] x.1 = true) ∧
    (ResultForest.addItems
        [⟨100, some 1, none, 0, "intro", none, none⟩,
          ⟨101, none, some 100, 0, "detail", none, none⟩,
          ⟨102, some 2, none, 0, "note", none, none⟩]
        (ResultForest.new ℕ) [(101, 10), (102, 30)] =
      ResultForest.addItems
        [⟨100, some 1, none, 0, "intro", none, none⟩,
          ⟨101, none, some 100, 0, "detail", none, none⟩,
          ⟨102, some 2, none, 0, "note", none, none⟩]
        (ResultForest.new ℕ) [(102, 30), (101, 10)]) :=
  ⟨by decide, by decide, by decide,
    (addItems_perm_invariant_and_idem _ (by decide) (by decide) (by decide)
      (ResultForest.new ℕ)).1⟩

/-- C4: in every page of the output of `get_subset_page_list`, every node
hangs under its stored parent: each root `SubsetItem` has a store row with
`parent_page_id` equal to the page's title, and each nested `SubsetItem` has
a store row with `parent_item_id` equal to the id of the node above it, so
every node is connected to its `SubsetPage` by an unbroken chain of stored
ancestors present in the output. -/
theorem get_subset_page_list_connected {D : Type} [LinearOrder D] (db : Db)
    (f : ResultForest D) (fuel : ℕ) (out : List (SubsetPage D))
    (h : f.get_subset_page_list db fuel = .ok out) :
    ∀ sp ∈ out, PageConnected db sp := by
  simp only [ResultForest.get_subset_page_list] at h
  intro sp hsp
  obtain ⟨p, _, hgp⟩ := mapE_ok_mem _ h sp hsp
  exact get_subset_page_edges db p fuel hgp

theorem get_subset_page_list_connected_witness :
    ((ResultForest.get_subset_page_list
        [⟨100, some 1, none, 0, "intro", none, none⟩,
          ⟨101, none, some 100, 0, "detail", none, none⟩]
        (⟨[(1, ⟨1, (10 : ℕ), [100, 101], [(101, 10)]⟩)]⟩ : ResultForest ℕ) 5) =
      .ok [⟨1, 10, [.node 100 none [.node 101 (some 10) []]]⟩]) ∧
    (∀ sp ∈ [(⟨1, 10,
          [.node 100 none [.node 101 (some 10) []]]⟩ : SubsetPage ℕ)],
      PageConnected
        [⟨100, some 1, none, 0, "intro", none, none⟩,
          ⟨101, none, some 100, 0, "detail", none, none⟩] sp) :=
  ⟨by rfl,
    get_subset_page_list_connected
      [⟨100, some 1, none, 0, "intro", none, none⟩,
        ⟨101, none, some 100, 0, "detail", none, none⟩]
      (⟨[(1, ⟨1, (10 : ℕ), [100, 101], [(101, 10)]⟩)]⟩ : ResultForest ℕ) 5
      [⟨1, 10, [.node 100 none [.node 101 (some 10) []]]⟩] (by rfl)⟩

/-- C6: for every forest the program builds (a sequence of `add_item` calls
on `ResultForest::new`), `get_subset_page_list` returns the pages sorted
ascending by minimum distance, pages with equal minimum distance appearing
in ascending title order — `BTreeMap::values` yields title order and
`sort_by_key` is stable, so the ordering is fully deterministic. -/
theorem get_subset_page_list_sorted {D : Type} [LinearOrder D] (db : Db)
    (hits : List (BlockId × D)) (f : ResultForest D) (fuel : ℕ)
    (out : List (SubsetPage D))
    (hbuild : ResultForest.addItems db (ResultForest.new D) hits = .ok f)
    (h : f.get_subset_page_list db fuel = .ok out) :
    out.Pairwise subsetPageLex := by
  have hinv : ForestInv f :=
    forestInv_addItems db hits _ f forestInv_new hbuild
  simp only [ResultForest.get_subset_page_list] at h
  have hnames : (f.pages.map (·.2)).Pairwise (fun a b => a.name < b.name) := by
    rw [List.pairwise_map]
    refine hinv.1.imp_of_mem ?_
    intro e e' he he' hlt
    rw [hinv.2 e he, hinv.2 e' he']
    exact hlt
  have hsorted := insertionSort_pageLex_of_names_sorted _ hnames
  refine mapE_ok_pairwise _ ?_ h hsorted
  intro a b c d hab hga hgb
  obtain ⟨hct, hcm⟩ := get_subset_page_fields db a fuel hga
  obtain ⟨hdt, hdm⟩ := get_subset_page_fields db b fuel hgb
  unfold subsetPageLex
  rw [hct, hcm, hdt, hdm]
  exact hab

theorem get_subset_page_list_sorted_witness :
    (ResultForest.addItems
        [⟨100, some 1, none, 0, "intro", none, none⟩,
          ⟨101, none, some 100, 0, "detail", none, none⟩,
          ⟨102, some 2, none, 0, "note", none, none⟩]
        (ResultForest.new ℕ) [(101, 10), (102, 30)] =
      .ok (⟨[(1, ⟨1, 10, [100, 101], [(101, 10)]⟩),
            (2, ⟨2, 30, [102], [(102, 30)]⟩)]⟩ : ResultForest ℕ)) ∧
    ((ResultForest.get_subset_page_list
        [⟨100, some 1, none, 0, "intro", none, none⟩,
          ⟨101, none, some 100, 0, "detail", none, none⟩,
          ⟨102, some 2, none, 0, "note", none, none⟩]
        (⟨[(1, ⟨1, 10, [100, 101], [(101, 10)]⟩),
          (2, ⟨2, 30, [102], [(102, 30)]⟩)]⟩ : ResultForest ℕ) 5) =
      .ok [⟨1, 10, [.node 100 none [.node 101 (some 10) []]]⟩,
           ⟨2, 30, [.node 102 (some 30) []]⟩]) ∧
    ([(⟨1, 10, [.node 100 none [.node 101 (some 10) []]]⟩ : SubsetPage ℕ),
      ⟨2, 30, [.node 102 (some 30) []]⟩].Pairwise subsetPageLex) :=
  ⟨by decide, by rfl,
    get_subset_page_list_sorted
      [⟨100, some 1, none, 0, "intro", none, none⟩,
        ⟨101, none, some 100, 0, "detail", none, none⟩,
        ⟨102, some 2, none, 0, "note", none, none⟩]
      [(101, 10), (102, 30)]
      (⟨[(1, ⟨1, 10, [100, 101], [(101, 10)]⟩),
         (2, ⟨2, 30, [102], [(102, 30)]⟩)]⟩ : ResultForest ℕ) 5
      [⟨1, 10, [.node 100 none [.node 101 (some 10) []]]⟩,
       ⟨2, 30, [.node 102 (some 30) []]⟩] (by decide) (by rfl)⟩

/-- C2 (evaluation of the code at the failing input): `cosine_distance` on
the opposite vectors `[1.0]` and `[-1.0]` returns the value `2` as a valid
`Distance` — a value outside `[0, 1]` returned successfully instead of
failing — contradicting the code's own doc comments (`Distance` is
documented as "bounded from zero to one" and `cosine_distance` as
"normalized to [0, 1]"): `Distance::try_from` checks only negativity and
NaN, never the upper bound. -/
theorem cosine_distance_out_of_range :
    cosine_distance [(1 : ℝ)] [(-1 : ℝ)] = some 2 ∧ ¬((2 : ℝ) ≤ 1) := by
  constructor
  · have h1 : dotProduct [(1 : ℝ)] [(1 : ℝ)] = some 1 := by
      unfold dotProduct
      norm_num
    have h2 : dotProduct [(-1 : ℝ)] [(-1 : ℝ)] = some 1 := by
      unfold dotProduct
      norm_num
    have h3 : dotProduct [(1 : ℝ)] [(-1 : ℝ)] = some (-1) := by
      unfold dotProduct
      norm_num
    unfold cosine_distance
    rw [h1, h2, h3]
    show (if (1 : ℝ) - (-1) / (Real.sqrt 1 * Real.sqrt 1) < 0 then none
      else some ((1 : ℝ) - (-1) / (Real.sqrt 1 * Real.sqrt 1))) = some 2
    rw [Real.sqrt_one]
    norm_num
  · norm_num

/-- C8 counterexample: a stored vector of dimensionality 2 against a query
of dimensionality 1 makes `execute` abort with a panic (the `ndarray` shape
check inside `dot`), not with a recoverable `InvalidInput` error. -/
theorem execute_dim_mismatch_counterexample :
    SimilaritySearch.execute
        (⟨[(1 : ℝ)], 32, cosine_distance⟩ : SimilaritySearch (List ℝ) ℝ)
        [⟨7, "", [1, 0]⟩] = .error .panic ∧
      SearchError.panic ≠ SearchError.invalidInput := by
  constructor
  · have hnone : distancePairs cosine_distance [(1 : ℝ)]
        [(⟨7, "", [1, 0]⟩ : ItemEmbedding (List ℝ))] = none :=
      distancePairs_none_of_mem _ _ (List.mem_singleton_self _)
        (cosine_distance_none_of_length_ne (by norm_num))
    unfold SimilaritySearch.execute
    rw [if_neg (by simp : ¬(([(⟨7, "", [1, 0]⟩ : ItemEmbedding (List ℝ))]).isEmpty = true))]
    rw [hnone]
  · decide

/-- C8 amended: when some stored vector's dimensionality differs from the
query's, `execute` with the cosine metric fails by panicking (the `ndarray`
shape check inside `dot` aborts the process); the failure is a panic, not an
`InvalidInput` error value, and no wrong result is returned. -/
theorem execute_panics_on_dim_mismatch (s : SimilaritySearch (List ℝ) ℝ)
    (items : List (ItemEmbedding (List ℝ)))
    (hmetric : s.distance_metric = cosine_distance)
    (hmm : ∃ it ∈ items, it.embedding.length ≠ s.query.length) :
    s.execute items = .error .panic := by
  obtain ⟨it, hit, hlen⟩ := hmm
  have hnone : distancePairs s.distance_metric s.query items = none := by
    apply distancePairs_none_of_mem _ _ hit
    rw [hmetric]
    exact cosine_distance_none_of_length_ne fun hc => hlen hc.symm
  have hne : ¬(items.isEmpty = true) := by
    cases items with
    | nil => cases hit
    | cons a l => simp
  unfold SimilaritySearch.execute
  rw [if_neg hne, hnone]

theorem execute_panics_on_dim_mismatch_witness :
    ((⟨[(1 : ℝ)], 32, cosine_distance⟩ :
        SimilaritySearch (List ℝ) ℝ).distance_metric = cosine_distance) ∧
    (∃ it ∈ [(⟨7, "", [1, 0]⟩ : ItemEmbedding (List ℝ))],
      it.embedding.length ≠
        (⟨[(1 : ℝ)], 32, cosine_distance⟩ :
          SimilaritySearch (List ℝ) ℝ).query.length) ∧
    SimilaritySearch.execute
        (⟨[(1 : ℝ)], 32, cosine_distance⟩ : SimilaritySearch (List ℝ) ℝ)
        [⟨7, "", [1, 0]⟩] = .error .panic :=
  ⟨rfl, ⟨⟨7, "", [1, 0]⟩, List.mem_singleton_self _, by simp⟩,
    execute_panics_on_dim_mismatch _ _ rfl
      ⟨⟨7, "", [1, 0]⟩, List.mem_singleton_self _, by simp⟩⟩

/-- C10: deserializing the little-endian serialization of an embedding
recovers it unchanged; each stored `f32` is modelled by its 32-bit pattern
(a natural number below `2 ^ 32`), on which `to_le_bytes` / `from_le_bytes`
are mutually inverse. -/
theorem from_bytes_to_bytes (e : List ℕ) (h : ∀ x ∈ e, x < 4294967296) :
    Embedding.from_bytes (Embedding.to_bytes e) = e := by
  induction e with
  | nil => rfl
  | cons x l ih =>
    have hx : x < 4294967296 := h x (List.mem_cons_self _ _)
    have hl : Embedding.from_bytes (Embedding.to_bytes l) = l :=
      ih fun y hy => h y (List.mem_cons_of_mem _ hy)
    have hsplit : Embedding.to_bytes (x :: l) =
        Embedding.f32_to_le_bytes x ++ Embedding.to_bytes l := by
      simp [Embedding.to_bytes]
    unfold Embedding.from_bytes
    rw [hsplit]
    show (Embedding.chunksExact4
      (Embedding.f32_to_le_bytes x ++ Embedding.to_bytes l)).map _ = _
    simp only [Embedding.f32_to_le_bytes, List.cons_append, List.nil_append]
    rw [Embedding.chunksExact4, List.map_cons]
    unfold Embedding.from_bytes at hl
    rw [hl]
    show Embedding.f32_from_le_bytes
      (x % 256, x / 256 % 256, x / 65536 % 256, x / 16777216 % 256) :: l = x :: l
    unfold Embedding.f32_from_le_bytes
    show (x % 256 + 256 * (x / 256 % 256) + 65536 * (x / 65536 % 256) +
      16777216 * (x / 16777216 % 256)) :: l = x :: l
    congr 1
    omega

theorem from_bytes_to_bytes_witness :
    (∀ x ∈ [1065353216, 1073741824, 1077936128], x < 4294967296) ∧
    Embedding.from_bytes (Embedding.to_bytes [1065353216, 1073741824, 1077936128]) =
      [1065353216, 1073741824, 1077936128] :=
  ⟨by decide, from_bytes_to_bytes _ (by decide)⟩

end Rtb
